import Mathlib

/-!
Verification of the chat-server core of `src/server.rs` (Rust-Chat-App).

Shallow embedding conventions:
* Strings and byte lines are `List Char`.
* The shared client registry `SharedClients = Arc<Mutex<Vec<OwnedWriteHalf>>>`
  is a `List WriteHalf`.  The code stores no identity in the vector; the model's
  `WriteHalf.wid` field records, as ghost data, the identity that was assigned to
  the connection when it was accepted, so that specification statements can
  talk about "the client with identity t".
* A write to a handle either succeeds or fails (broken pipe); `WriteHalf.ok`
  fixes the behaviour of the handle, and `WriteHalf.sent` logs the successfully
  written lines.
* `usize` is a 64-bit machine integer; values are `Nat` with explicit bounds.
  Arithmetic that panics in the source (debug-profile overflow checks,
  `Vec::remove` out of bounds) is modelled by returning `none`.
-/

/-- The newline terminator appended by `format!("{}\n", ...)` in the server. -/
def nl : Char := '\n'

/-- Model of one registered `tokio::net::tcp::OwnedWriteHalf` held in the
shared `Vec`.  `wid` is the identity assigned at accept time (ghost data, the
actual vector stores only the handle), `ok` tells whether writes to the peer
succeed, `sent` logs every line successfully written to the peer. -/
structure WriteHalf where
  wid : Nat
  ok : Bool
  sent : List (List Char)
deriving DecidableEq

/-- One `write_all` call against a handle: on success the line is appended to
the peer's log and `true` is returned; on failure the handle is unchanged and
`false` is returned. -/
def writeLine (w : WriteHalf) (m : List Char) : WriteHalf × Bool :=
  if w.ok then ({ w with sent := w.sent ++ [m] }, true) else (w, false)

/-- All lines received by the client with identity `i` across the registry
(ghost observation used by specification statements). -/
def sentTo (reg : List WriteHalf) (i : Nat) : List (List Char) :=
  ((reg.filter (fun w => w.wid == i)).map (fun w => w.sent)).flatten

/-! ### Model of parse_private_message (src/server.rs lines 146-156) -/

/-- Split a list at its first space: `breakSpace l = (before, some after)` if
`l` contains a space, `(l, none)` otherwise.  This is the elementary step of
Rust's `splitn(3, ' ')`. -/
def breakSpace : List Char → List Char × Option (List Char)
  | [] => ([], none)
  | c :: r => if c = ' ' then ([], some r) else (c :: (breakSpace r).1, (breakSpace r).2)

/-- Rust's `input.splitn(3, ' ')`: at most three parts, the last part is the
unsplit remainder. -/
def splitn3 (l : List Char) : List (List Char) :=
  match breakSpace l with
  | (a, none) => [a]
  | (a, some r) =>
    match breakSpace r with
    | (b, none) => [a, b]
    | (b, some c) => [a, b, c]

/-- Numeric value of a digit string (most significant first). -/
def natOfDigits (l : List Char) : Nat :=
  l.foldl (fun a c => a * 10 + (c.toNat - '0'.toNat)) 0

/-- A non-empty all-digit string denotes a number; anything else fails. -/
def decDigits? (l : List Char) : Option Nat :=
  if l ≠ [] ∧ l.all Char.isDigit then some (natOfDigits l) else none

/-- Strip one optional leading plus sign (accepted by Rust's integer `parse`). -/
def stripPlus (l : List Char) : List Char :=
  match l with
  | '+' :: t => t
  | l => l

/-- The specification's notion "the part parses as a non-negative integer":
an optional plus sign followed by one or more decimal digits, denoting an
unbounded natural number.  (Spec-side definition, to be compared with the
code's bounded `parseUsize`.) -/
def specNonNegInt (l : List Char) : Option Nat :=
  decDigits? (stripPlus l)

/-- Rust's `str::parse::<usize>()` on a 64-bit target: optional `+` sign, one
or more decimal digits, and the checked accumulation fails exactly when the
denoted value does not fit below `2^64`.  (The checked `mul`/`add` fail on the
first intermediate overflow; since the accumulator is monotone the result is
`Ok` iff the final value is below `2^64`.) -/
def parseUsize (l : List Char) : Option Nat :=
  match decDigits? (stripPlus l) with
  | some n => if n < 2 ^ 64 then some n else none
  | none => none

/-- The literal prefix `"/msg "` checked by `input.starts_with("/msg ")`. -/
def msgPrefixL : List Char := ['/', 'm', 's', 'g', ' ']

/-- Model of `parse_private_message` (src/server.rs lines 146-156): check the literal
prefix `"/msg "`, split into at most three space-delimited parts, require
exactly three parts with an integral second part; the third part is the
payload, not re-split. -/
def parse_private_message (input : List Char) : Option (Nat × List Char) :=
  if msgPrefixL.isPrefixOf input then
    match splitn3 input with
    | [_, p1, p2] =>
      match parseUsize p1 with
      | some t => some (t, p2)
      | none => none
    | _ => none
  else none

/-! ### Message formatting -/

/-- Decimal rendering of an identity, as produced by `format!`. -/
def natChars (n : Nat) : List Char := Nat.toDigits 10 n

/-- Rendering of `format!("[Private] Client {}: {}", client_id, private_msg)`. -/
def privFmt (s : Nat) (p : List Char) : List Char :=
  (String.toList ("[Private] Client ")) ++ natChars s ++ (String.toList (": ")) ++ p

/-- Rendering of `format!("Client {}: {}", client_id, trimmed_line)`. -/
def bcastFmt (s : Nat) (line : List Char) : List Char :=
  (String.toList ("Client ")) ++ natChars s ++ (String.toList (": ")) ++ line

/-- ASCII fragment of Rust's `char::is_whitespace` (the full predicate is
Unicode `White_Space`; only these arise in the modelled protocol). -/
def isSpaceB (c : Char) : Bool := c == ' ' || c == '\t' || c == '\n' || c == '\r'

/-- Rust's `str::trim`: drop leading and trailing whitespace. -/
def trimL (l : List Char) : List Char :=
  ((l.dropWhile isSpaceB).reverse.dropWhile isSpaceB).reverse

/-! ### Model of send_private_message (src/server.rs lines 170-183) -/

/-- Model of `send_private_message`: index the vector at `target_id - 1`.  The `usize`
subtraction `target_id - 1` panics for `target_id = 0` under the crate's
default (debug) profile overflow checks, modelled as `none`.  If the index is
absent the function only logs "Client not found" (no state change); if the
write fails it only logs the failure (no removal). -/
def send_private_message (clients : List WriteHalf) (target_id : Nat) (message : List Char) :
    Option (List WriteHalf) :=
  if target_id = 0 then none
  else
    match clients.get? (target_id - 1) with
    | some w => some (clients.set (target_id - 1) (writeLine w (message ++ [nl])).1)
    | none => some clients

/-! ### Model of broadcast_message (src/server.rs lines 193-213) -/

/-- Phase one of `broadcast_message`: the `for (index, writer) in
clients.iter_mut().enumerate()` loop.  Attempts one write per handle, in
order, and collects the indices (counted from `i`) whose write failed. -/
def broadcastPass (ws : List WriteHalf) (msg : List Char) (i : Nat) : List WriteHalf × List Nat :=
  match ws with
  | [] => ([], [])
  | w :: rest =>
    let r := writeLine w msg
    let p := broadcastPass rest msg (i + 1)
    (r.1 :: p.1, if r.2 then p.2 else i :: p.2)

/-- Model of `Vec::remove(index)`: removes and shifts; panics (modelled `none`) if the
index is out of bounds. -/
def vecRemove (l : List WriteHalf) (i : Nat) : Option (List WriteHalf) :=
  if i < l.length then some (l.eraseIdx i) else none

/-- Phase two of `broadcast_message`: `for &index in
clients_to_remove.iter().rev() { clients.remove(index); }` — the argument list
is already reversed by the caller. -/
def removeAllRev : List WriteHalf → List Nat → Option (List WriteHalf)
  | cs, [] => some cs
  | cs, i :: rest =>
    match vecRemove cs i with
    | some cs2 => removeAllRev cs2 rest
    | none => none

/-- Model of `broadcast_message`: write the line plus terminator to every handle, collecting the
indices of failed writes, then remove exactly the collected indices in
descending order. -/
def broadcast_message (clients : List WriteHalf) (message : List Char) : Option (List WriteHalf) :=
  let pr := broadcastPass clients (message ++ [nl]) 0
  removeAllRev pr.1 pr.2.reverse

/-- Indices of the registry entries whose handle is dead (write would fail):
independent characterisation of the failure set collected by the broadcast
pass. -/
def specFailIdxs (reg : List WriteHalf) : List Nat :=
  (List.range reg.length).filter (fun i => !(reg.getD i ⟨0, true, []⟩).ok)

/-! ### Model of handle_connection (src/server.rs lines 88-127) -/

/-- One outcome of `buf_reader.read_line(&mut line)` as observed by the
`while let Ok(bytes_read)` loop: a line of bytes, a clean EOF (zero bytes), or
a transport error. -/
inductive ReadEvent where
  | line (raw : List Char)
  | eof
  | rerr
deriving DecidableEq

/-- The body of `handle_connection`'s read loop: for each line, trim it, try
`parse_private_message`, and dispatch privately or broadcast.  On EOF or read
error the loop exits **without touching the registry** (the function only
prints "Client {id} disconnected.").  A `none` result models a panic
propagating out of the connection's task. -/
def procEvents (reg : List WriteHalf) (cid : Nat) : List ReadEvent → Option (List WriteHalf)
  | [] => some reg
  | ReadEvent.eof :: _ => some reg
  | ReadEvent.rerr :: _ => some reg
  | ReadEvent.line raw :: rest =>
    let t := trimL raw
    match parse_private_message t with
    | some pr =>
      match send_private_message reg pr.1 (privFmt cid pr.2) with
      | some reg2 => procEvents reg2 cid rest
      | none => none
    | none =>
      match broadcast_message reg (bcastFmt cid t) with
      | some reg2 => procEvents reg2 cid rest
      | none => none

/-- Model of `handle_connection`: push the connection's write half onto the shared
vector, then run the read loop on the connection's stream of read outcomes. -/
def handle_connection (reg : List WriteHalf) (w : WriteHalf) (cid : Nat)
    (events : List ReadEvent) : Option (List WriteHalf) :=
  procEvents (reg ++ [w]) cid events

/-! ### Model of run_server (src/server.rs lines 50-75) -/

/-- Observable outcome of a prefix of `run_server`'s accept loop.
`assigned` lists every identity consumed (in order), `spawned` the identities
whose connection reached `tokio::spawn`, `next` the final value of the
`client_id` counter, and `errored` whether `run_server` returned `Err`. -/
structure AcceptResult where
  assigned : List Nat
  spawned : List Nat
  next : Nat
  errored : Bool
deriving DecidableEq

/-- The accept loop of `run_server`, driven by the outcomes of the handshake
write `writer.write_all(format!("Your ID: {}\n", current_id))` for each
accepted connection (`true` = write succeeded).  The identity counter is
incremented *before* the handshake write; the `?` on the write makes a
handshake failure return `Err` from `run_server`, abandoning the loop, so the
remaining accept events are never served. -/
def run_server : List Bool → Nat → AcceptResult
  | [], id => ⟨[], [], id, false⟩
  | hsOk :: rest, id =>
    if hsOk then
      let r := run_server rest (id + 1)
      ⟨id :: r.assigned, id :: r.spawned, r.next, r.errored⟩
    else
      ⟨[id], [], id + 1, true⟩


/-! ### Helper lemmas: the space-splitting structure of the parser -/

theorem breakSpace_eq_some {l a r : List Char} (h : breakSpace l = (a, some r)) :
    l = a ++ ' ' :: r ∧ ' ' ∉ a := by
  induction l generalizing a with
  | nil => simp [breakSpace] at h
  | cons c t ih =>
    by_cases hc : c = ' '
    · subst hc
      simp [breakSpace] at h
      obtain ⟨rfl, rfl⟩ := h
      simp
    · simp [breakSpace, hc] at h
      obtain ⟨rfl, h2⟩ := h
      rcases hbt : breakSpace t with ⟨a', o⟩
      rw [hbt] at h2
      cases o with
      | none => simp at h2
      | some r' =>
        simp at h2
        obtain ⟨rfl, rfl⟩ := h2
        obtain ⟨rfl, hna⟩ := ih hbt
        refine ⟨rfl, ?_⟩
        simp [hna]
        exact fun hcontra => hc hcontra.symm

theorem breakSpace_append {a : List Char} (r : List Char) (h : ' ' ∉ a) :
    breakSpace (a ++ ' ' :: r) = (a, some r) := by
  induction a with
  | nil => simp [breakSpace]
  | cons c t ih =>
    have hc : ¬ c = ' ' := by
      intro hcontra
      exact h (by simp [hcontra])
    have ht : ' ' ∉ t := fun hmem => h (by simp [hmem])
    simp [breakSpace, hc, ih ht]

theorem breakSpace_msgPrefixL (r : List Char) :
    breakSpace (msgPrefixL ++ r) = (['/', 'm', 's', 'g'], some r) := rfl

theorem isPrefixOf_append_self (l r : List Char) : l.isPrefixOf (l ++ r) = true := by
  induction l with
  | nil => simp [List.isPrefixOf]
  | cons c t ih => simp [List.isPrefixOf, ih]

theorem msgPrefixL_isPrefixOf_inv {l : List Char} (h : msgPrefixL.isPrefixOf l = true) :
    ∃ r, l = msgPrefixL ++ r := by
  rcases l with _ | ⟨c0, l⟩
  · exact absurd h (by decide)
  rcases l with _ | ⟨c1, l⟩
  · simp [msgPrefixL, List.isPrefixOf] at h
  rcases l with _ | ⟨c2, l⟩
  · simp [msgPrefixL, List.isPrefixOf] at h
  rcases l with _ | ⟨c3, l⟩
  · simp [msgPrefixL, List.isPrefixOf] at h
  rcases l with _ | ⟨c4, l⟩
  · simp [msgPrefixL, List.isPrefixOf] at h
  simp only [msgPrefixL, List.isPrefixOf, Bool.and_eq_true, beq_iff_eq] at h
  obtain ⟨h0, h1, h2, h3, h4, _⟩ := h
  subst h0; subst h1; subst h2; subst h3; subst h4
  exact ⟨l, rfl⟩

theorem parseUsize_eq_some_iff (l : List Char) (t : Nat) :
    parseUsize l = some t ↔ specNonNegInt l = some t ∧ t < 2 ^ 64 := by
  unfold parseUsize specNonNegInt
  cases hdd : decDigits? (stripPlus l) with
  | none => simp
  | some n =>
    constructor
    · intro h
      rcases (by simpa using h : n < 2 ^ 64 ∧ n = t) with ⟨hb, rfl⟩
      exact ⟨rfl, hb⟩
    · rintro ⟨h1, h2⟩
      rcases (by simpa using h1 : n = t) with rfl
      simp [h2]
      exact h2

/-- Full characterisation of `parse_private_message`: it yields a private
command `(t, p)` exactly for inputs of the shape
`"/msg " ++ d ++ " " ++ p` where `d` is space-free, denotes a non-negative
integer, and that integer fits in `usize`.  The payload `p` is everything
after the second space, not re-split. -/
theorem parse_eq_some_iff (s : List Char) (t : Nat) (p : List Char) :
    parse_private_message s = some (t, p) ↔
      ∃ d, s = msgPrefixL ++ (d ++ ' ' :: p) ∧ ' ' ∉ d ∧
        specNonNegInt d = some t ∧ t < 2 ^ 64 := by
  constructor
  · intro h
    cases hp : msgPrefixL.isPrefixOf s with
    | false => simp [parse_private_message, hp] at h
    | true =>
      obtain ⟨r, rfl⟩ := msgPrefixL_isPrefixOf_inv hp
      have hsp0 : splitn3 (msgPrefixL ++ r) =
          (match breakSpace r with
           | (b, none) => [['/', 'm', 's', 'g'], b]
           | (b, some c) => [['/', 'm', 's', 'g'], b, c]) := by
        unfold splitn3
        rw [breakSpace_msgPrefixL]
      rcases hbr : breakSpace r with ⟨b, o⟩
      cases o with
      | none => simp [parse_private_message, hp, hsp0, hbr] at h
      | some c =>
        simp only [parse_private_message, hp, if_true, hsp0, hbr] at h
        cases hpu : parseUsize b with
        | none => simp [hpu] at h
        | some t' =>
          simp [hpu] at h
          obtain ⟨rfl, rfl⟩ := h
          obtain ⟨rfl, hnb⟩ := breakSpace_eq_some hbr
          have hiff := (parseUsize_eq_some_iff b t').mp hpu
          exact ⟨b, rfl, hnb, hiff.1, hiff.2⟩
  · rintro ⟨d, rfl, hd, hspec, hb⟩
    have hpre : msgPrefixL.isPrefixOf (msgPrefixL ++ (d ++ ' ' :: p)) = true :=
      isPrefixOf_append_self _ _
    have hpu : parseUsize d = some t := (parseUsize_eq_some_iff d t).mpr ⟨hspec, hb⟩
    have hsp : splitn3 (msgPrefixL ++ (d ++ ' ' :: p)) = [['/', 'm', 's', 'g'], d, p] := by
      unfold splitn3
      rw [breakSpace_msgPrefixL]
      simp only [breakSpace_append p hd]
    simp [parse_private_message, hpre, hsp, hpu]

/-- Claim C5 (amended: the target must additionally fit in the 64-bit `usize`
range).  `parse_private_message` maps `/msg 2 Hello, Client 2!` to the private
command `(2, "Hello, Client 2!")`, rejects `/msg Hello, Client!` (non-integer
target) and `msg 2 Hello!` (missing prefix), and in general returns a private
command exactly for inputs `"/msg " ++ d ++ " " ++ payload` whose space-free
second part `d` parses as a non-negative integer below `2^64`; everything else
yields `none` (broadcast fallback). -/
theorem parse_private_message_correct :
    (parse_private_message (String.toList ("/msg 2 Hello, Client 2!")) =
        some (2, String.toList ("Hello, Client 2!"))) ∧
    (parse_private_message (String.toList ("/msg Hello, Client!")) = none) ∧
    (parse_private_message (String.toList ("msg 2 Hello!")) = none) ∧
    ∀ s t p, parse_private_message s = some (t, p) ↔
      ∃ d, s = msgPrefixL ++ (d ++ ' ' :: p) ∧ ' ' ∉ d ∧
        specNonNegInt d = some t ∧ t < 2 ^ 64 :=
  ⟨by decide, by decide, by decide, parse_eq_some_iff⟩

/-- Claim C5, counterexample to the unbounded reading: the input
`/msg 18446744073709551616 x` has the literal `/msg ` prefix and splits into
three parts whose second part parses as the non-negative integer `2^64`, yet
`parse_private_message` returns `none` (Rust's `usize` parse overflows), so
"parses as a non-negative integer" without the `usize` bound is refuted. -/
theorem parse_private_message_overflow_cex :
    specNonNegInt (String.toList ("18446744073709551616")) = some (2 ^ 64) ∧
    (String.toList ("/msg 18446744073709551616 x")) =
      msgPrefixL ++ ((String.toList ("18446744073709551616")) ++ ' ' ::
        (String.toList ("x"))) ∧
    ' ' ∉ (String.toList ("18446744073709551616")) ∧
    parse_private_message (String.toList ("/msg 18446744073709551616 x")) = none :=
  ⟨by decide, by decide, by decide, by decide⟩

/-- Claim C10: `parse_private_message` accepts `/msg 0 hi` as a private
command with target identity `0`, but `send_private_message` computes the
index `target_id - 1` as a `usize` subtraction, which underflows (panics under
the crate's default debug-profile overflow checks, modelled as `none`) for
target `0` — so the silent recipient-not-found branch (third conjunct, which
`target_id = 1` on an empty registry does reach) is never taken for that
parseable command: the lookup is not total over parseable private commands. -/
theorem send_private_zero_target_underflow :
    parse_private_message (String.toList ("/msg 0 hi")) =
        some (0, String.toList ("hi")) ∧
    (∀ (reg : List WriteHalf) (m : List Char), send_private_message reg 0 m = none) ∧
    (∀ m : List Char, send_private_message [] 1 m = some []) :=
  ⟨by decide, fun _ _ => rfl, fun _ => rfl⟩

/-! ### Helper lemmas: the two-phase broadcast -/

theorem broadcastPass_fst (ws : List WriteHalf) (msg : List Char) (i : Nat) :
    (broadcastPass ws msg i).1 = ws.map (fun w => (writeLine w msg).1) := by
  induction ws generalizing i with
  | nil => rfl
  | cons w rest ih => simp [broadcastPass, ih]

theorem broadcastPass_shift (ws : List WriteHalf) (msg : List Char) (i : Nat) :
    (broadcastPass ws msg (i + 1)).2 = ((broadcastPass ws msg i).2).map (· + 1) := by
  induction ws generalizing i with
  | nil => rfl
  | cons w rest ih =>
    by_cases hok : (writeLine w msg).2 <;>
      simp [broadcastPass, hok, ih (i + 1), ih i]

theorem broadcastPass_one (ws : List WriteHalf) (msg : List Char) :
    (broadcastPass ws msg 1).2 = ((broadcastPass ws msg 0).2).map (· + 1) :=
  broadcastPass_shift ws msg 0

theorem removeAllRev_consShift (js : List Nat) (x : WriteHalf) (cs : List WriteHalf) :
    removeAllRev (x :: cs) (js.map (· + 1)) =
      (removeAllRev cs js).map (fun l => x :: l) := by
  induction js generalizing cs with
  | nil => rfl
  | cons j js ih =>
    simp only [List.map_cons, removeAllRev]
    by_cases hj : j < cs.length
    · have h1 : vecRemove (x :: cs) (j + 1) = some (x :: cs.eraseIdx j) := by
        simp [vecRemove, hj]
      have h2 : vecRemove cs j = some (cs.eraseIdx j) := by
        simp [vecRemove, hj]
      rw [h1, h2]
      exact ih (cs.eraseIdx j)
    · have h1 : vecRemove (x :: cs) (j + 1) = none := by
        simp only [vecRemove, List.length_cons]
        rw [if_neg (by omega)]
      have h2 : vecRemove cs j = none := by
        simp only [vecRemove]
        rw [if_neg (by omega)]
      rw [h1, h2]
      rfl

theorem removeAllRev_append (l1 l2 : List Nat) (cs : List WriteHalf) :
    removeAllRev cs (l1 ++ l2) =
      match removeAllRev cs l1 with
      | some cs2 => removeAllRev cs2 l2
      | none => none := by
  induction l1 generalizing cs with
  | nil => rfl
  | cons j l1 ih =>
    simp only [List.cons_append, removeAllRev]
    rcases h : vecRemove cs j with _ | cs2
    · rfl
    · exact ih cs2

/-- The final state of a broadcast: every live handle gets the line appended,
every dead handle is evicted, order is preserved, and no removal ever panics. -/
theorem broadcast_pass_remove_eq_filter (reg : List WriteHalf) (msg : List Char) :
    removeAllRev (broadcastPass reg msg 0).1 ((broadcastPass reg msg 0).2).reverse =
      some ((reg.filter (fun w => w.ok)).map
        (fun w => { w with sent := w.sent ++ [msg] })) := by
  induction reg with
  | nil => rfl
  | cons w ws ih =>
    by_cases hok : w.ok
    · have hw : writeLine w msg = ({ w with sent := w.sent ++ [msg] }, true) := by
        simp [writeLine, hok]
      simp only [broadcastPass, hw, if_true]
      rw [broadcastPass_one, broadcastPass_fst ws msg 1, ← broadcastPass_fst ws msg 0,
        ← List.map_reverse, removeAllRev_consShift, ih]
      simp [hok]
    · have hw : writeLine w msg = (w, false) := by
        simp [writeLine, hok]
      simp only [broadcastPass, hw, Bool.false_eq_true, if_false]
      rw [broadcastPass_one, broadcastPass_fst ws msg 1, ← broadcastPass_fst ws msg 0]
      rw [List.reverse_cons, ← List.map_reverse, removeAllRev_append,
        removeAllRev_consShift, ih]
      simp only [Option.map_some']
      have hrm : vecRemove
          (w :: (ws.filter (fun w => w.ok)).map (fun w => { w with sent := w.sent ++ [msg] })) 0 =
          some ((ws.filter (fun w => w.ok)).map (fun w => { w with sent := w.sent ++ [msg] })) := by
        simp [vecRemove]
      simp only [removeAllRev, hrm]
      simp [List.filter_cons, hok]

/-- The broadcast function itself, in terms of the final registry. -/
theorem broadcast_message_eq_filter (reg : List WriteHalf) (msg : List Char) :
    broadcast_message reg msg =
      some ((reg.filter (fun w => w.ok)).map
        (fun w => { w with sent := w.sent ++ [msg ++ [nl]] })) :=
  broadcast_pass_remove_eq_filter reg (msg ++ [nl])

theorem filter_over_map (f : Nat → Nat) (p : Nat → Bool) (l : List Nat) :
    (l.map f).filter p = (l.filter (fun x => p (f x))).map f := by
  induction l with
  | nil => rfl
  | cons x l ih => by_cases h : p (f x) <;> simp [h, ih]

/-- The indices collected by the broadcast pass are exactly the positions of
the dead handles, in increasing order. -/
theorem broadcastPass_snd (reg : List WriteHalf) (msg : List Char) :
    (broadcastPass reg msg 0).2 = specFailIdxs reg := by
  induction reg with
  | nil => rfl
  | cons w ws ih =>
    have hmap : ((List.range ws.length).map (fun x => x + 1)).filter
        (fun i => !((w :: ws).getD i ⟨0, true, []⟩).ok) =
        ((List.range ws.length).filter
          (fun i => !(ws.getD i ⟨0, true, []⟩).ok)).map (fun x => x + 1) := by
      rw [filter_over_map]
      simp only [List.getD_cons_succ]
    by_cases hok : w.ok
    · have hw : (writeLine w msg).2 = true := by simp [writeLine, hok]
      simp only [broadcastPass, hw, if_true]
      rw [broadcastPass_one, ih]
      simp only [specFailIdxs, List.length_cons, List.range_succ_eq_map]
      rw [List.filter_cons]
      simp only [List.getD_cons_zero, hok, Bool.not_true, hmap]
      rfl
    · have hw : (writeLine w msg).2 = false := by simp [writeLine, hok]
      simp only [broadcastPass, hw, Bool.false_eq_true, if_false]
      rw [broadcastPass_one, ih]
      simp only [specFailIdxs, List.length_cons, List.range_succ_eq_map]
      rw [List.filter_cons]
      have hok' : w.ok = false := by
        cases h : w.ok
        · rfl
        · exact absurd h hok
      simp only [List.getD_cons_zero, hok', Bool.not_false, hmap]
      rfl

theorem set_get_self (l : List WriteHalf) (i : Nat) (h : i < l.length) :
    l.set i (l.get ⟨i, h⟩) = l := by
  induction l generalizing i with
  | nil => simp at h
  | cons a t ih =>
    cases i with
    | zero => rfl
    | succ j =>
      have hj : j < t.length := by simpa using h
      simp [List.set, ih j hj]
      exact ih j hj

/-! ### Claim theorems on dispatch and the registry -/

/-- Claim C7: broadcast dispatch is two-phase.  During one full traversal a
write is attempted on every registered handle exactly once, in order (the
pass's writer list is the elementwise image of one `writeLine` per entry — no
entry skipped or double-visited); the positions of all failing handles are
collected; and only after the traversal are exactly those positions removed:
the final registry keeps, unchanged except for the appended line, exactly the
entries whose write succeeded, in their original order. -/
theorem broadcast_two_phase (reg : List WriteHalf) (m : List Char) :
    ((broadcastPass reg (m ++ [nl]) 0).1 =
        reg.map (fun w => (writeLine w (m ++ [nl])).1)) ∧
    ((broadcastPass reg (m ++ [nl]) 0).2 = specFailIdxs reg) ∧
    (broadcast_message reg m =
        some ((reg.filter (fun w => w.ok)).map
          (fun w => { w with sent := w.sent ++ [m ++ [nl]] }))) :=
  ⟨broadcastPass_fst reg (m ++ [nl]) 0, broadcastPass_snd reg (m ++ [nl]),
    broadcast_message_eq_filter reg m⟩

/-- Claim C8, counterexample: the registry has no identity-keyed removal; the
code's only removal primitive is the positional `Vec::remove`, and removing at
an absent position (out of bounds — e.g. position 0 of an empty registry) is a
panic, not a no-op. -/
theorem vecRemove_absent_not_noop :
    vecRemove ([] : List WriteHalf) 0 = none ∧
    ¬ vecRemove ([] : List WriteHalf) 0 = some ([] : List WriteHalf) :=
  ⟨rfl, by decide⟩

/-- Claim C8 (amended): removal is positional, not identity-keyed, and
`Vec::remove` panics on an absent index; within a single broadcast pass this
never happens — the collected failure indices are strictly increasing and in
bounds, so the descending-order removals each hit exactly one valid entry and
the pass always completes, leaving the surviving entries unchanged. -/
theorem broadcast_removals_in_bounds (reg : List WriteHalf) (m : List Char) :
    List.Pairwise (fun a b => a < b) (broadcastPass reg (m ++ [nl]) 0).2 ∧
    (∀ i ∈ (broadcastPass reg (m ++ [nl]) 0).2, i < reg.length) ∧
    (broadcast_message reg m).isSome = true := by
  refine ⟨?_, ?_, ?_⟩
  · rw [broadcastPass_snd]
    exact List.Pairwise.filter _ (List.pairwise_lt_range _)
  · intro i hi
    rw [broadcastPass_snd] at hi
    exact List.mem_range.mp (List.mem_of_mem_filter hi)
  · rw [broadcast_message_eq_filter]
    rfl

/-- Claim C6: an inbound line that fails the private parse is broadcast: the
router formats `Client {cid}: {line}` — where the line is the raw read with
terminator and surrounding whitespace trimmed, routed whole — and writes it,
with terminator, to every currently registered handle in registry order; the
sender's own handle (appended at registration) is part of the recipient set
like any other. -/
theorem broadcast_line_fanout (reg : List WriteHalf) (w : WriteHalf) (cid : Nat)
    (raw : List Char) (hb : parse_private_message (trimL raw) = none) :
    handle_connection reg w cid [ReadEvent.line raw] =
      some (((reg ++ [w]).filter (fun v => v.ok)).map
        (fun v => { v with sent := v.sent ++ [bcastFmt cid (trimL raw) ++ [nl]] })) := by
  simp [handle_connection, procEvents, hb, broadcast_message_eq_filter]

theorem broadcast_line_fanout_witness :
    handle_connection [⟨2, true, []⟩] ⟨1, true, []⟩ 1
        [ReadEvent.line (String.toList ("Hello from Client 1"))] =
      some (((([⟨2, true, []⟩] ++ [⟨1, true, []⟩] : List WriteHalf)).filter (fun v => v.ok)).map
        (fun v => { v with sent := v.sent ++
          [bcastFmt 1 (trimL (String.toList ("Hello from Client 1"))) ++ [nl]] })) :=
  broadcast_line_fanout ([⟨2, true, []⟩] : List WriteHalf) (⟨1, true, []⟩ : WriteHalf) 1
    (String.toList ("Hello from Client 1")) (by decide)

/-- Claim C2 (code bug): when the read loop of `handle_connection` sees a
clean EOF or a read error it merely breaks and prints "Client {id}
disconnected." — the write half pushed at registration stays in the shared
registry; no removal happens, contradicting both the claim and the function's
own documentation ("It also removes the client from the shared list upon
disconnection"). -/
theorem handle_connection_no_cleanup :
    handle_connection [] ⟨5, true, []⟩ 5 [ReadEvent.eof] = some [⟨5, true, []⟩] ∧
    handle_connection [] ⟨5, true, []⟩ 5 [ReadEvent.rerr] = some [⟨5, true, []⟩] ∧
    (([⟨5, true, []⟩] : List WriteHalf).any (fun v => v.wid == 5) = true) :=
  ⟨rfl, rfl, by decide⟩

/-! ### Claims on private dispatch -/

/-- A registry state with clients 1, 2, 3 registered in order, client 1's peer
dead (its next write fails). -/
def regHist : List WriteHalf := [⟨1, false, []⟩, ⟨2, true, []⟩, ⟨3, true, []⟩]

/-- The broadcast line used to evict client 1's dead handle. -/
def bootMsg : List Char := String.toList ("boot")

/-- State of `regHist` after one broadcast: client 1 evicted, clients 2 and 3 now at
positions 0 and 1. -/
def regEvicted : List WriteHalf :=
  [⟨2, true, [bootMsg ++ [nl]]⟩, ⟨3, true, [bootMsg ++ [nl]]⟩]

/-- The private line client 1 would address to client 2. -/
def privHi : List Char := privFmt 1 (String.toList ("hi"))

/-- State of `regEvicted` after the misdelivered private dispatch: the line landed on
client 3's handle. -/
def regMisdelivered : List WriteHalf :=
  [⟨2, true, [bootMsg ++ [nl]]⟩, ⟨3, true, [bootMsg ++ [nl], privHi ++ [nl]]⟩]

/-- Claim C1, counterexample: after client 1's dead handle is evicted by a
broadcast (a removal out of insertion order), clients 2 and 3 sit at positions
0 and 1; a private dispatch to target identity 2 indexes position `2 - 1 = 1`
and delivers the line to client **3**, while the registered client with
identity 2 receives nothing — refuting "dispatch looks up exactly the client
whose assigned identity is t ... and to no other client". -/
theorem send_private_wrong_client_cex :
    broadcast_message regHist bootMsg = some regEvicted ∧
    send_private_message regEvicted 2 privHi = some regMisdelivered ∧
    sentTo regMisdelivered 2 = sentTo regEvicted 2 ∧
    sentTo regMisdelivered 3 = sentTo regEvicted 3 ++ [privHi ++ [nl]] :=
  ⟨by decide, by decide, by decide, by decide⟩

/-- Claim C1 (amended): private dispatch is positional — it reads the handle
at position `t - 1` of the registry sequence.  On an identity-aligned registry
(position k holds the client with identity k+1, which is the invariant of any
history without out-of-order removals) that position is exactly the client
with identity t: if it exists and its peer is live, that client alone receives
the line plus terminator (a point update at position t-1); if the position
does not exist, the dispatch returns the registry unchanged and nothing is
written or reported. -/
theorem send_private_aligned (reg : List WriteHalf) (t : Nat) (m : List Char)
    (halign : ∀ k (hk : k < reg.length), (reg.get ⟨k, hk⟩).wid = k + 1)
    (ht : 1 ≤ t) :
    (∀ h : t - 1 < reg.length,
      (reg.get ⟨t - 1, h⟩).wid = t ∧
      ((reg.get ⟨t - 1, h⟩).ok = true →
        send_private_message reg t m =
          some (reg.set (t - 1)
            { reg.get ⟨t - 1, h⟩ with
                sent := (reg.get ⟨t - 1, h⟩).sent ++ [m ++ [nl]] }))) ∧
    (reg.length ≤ t - 1 → send_private_message reg t m = some reg) := by
  have ht0 : ¬ t = 0 := by omega
  constructor
  · intro h
    constructor
    · rw [halign (t - 1) h]
      omega
    · intro hok
      unfold send_private_message
      rw [if_neg ht0, List.get?_eq_get h]
      simp only [List.get_eq_getElem] at hok
      simp [writeLine, hok]
  · intro h
    unfold send_private_message
    rw [if_neg ht0, List.get?_eq_none.mpr h]

/-- Identity-aligned two-client registry used to witness the amended C1. -/
def regAlignedW : List WriteHalf := [⟨1, true, []⟩, ⟨2, true, []⟩]

theorem send_private_aligned_witness :
    (∀ h : 2 - 1 < regAlignedW.length,
      (regAlignedW.get ⟨2 - 1, h⟩).wid = 2 ∧
      ((regAlignedW.get ⟨2 - 1, h⟩).ok = true →
        send_private_message regAlignedW 2 privHi =
          some (regAlignedW.set (2 - 1)
            { regAlignedW.get ⟨2 - 1, h⟩ with
                sent := (regAlignedW.get ⟨2 - 1, h⟩).sent ++ [privHi ++ [nl]] }))) ∧
    (regAlignedW.length ≤ 2 - 1 →
      send_private_message regAlignedW 2 privHi = some regAlignedW) := by
  exact send_private_aligned regAlignedW 2 privHi (by decide) (by decide)

/-- Claim C4, counterexample: target identity 1 is registered (position 0) but
its peer is dead; the private write fails and `send_private_message` leaves
the registry exactly as it was — the identity is **not** removed (the code
only logs "Failed to send private message"), refuting the claimed eviction. -/
theorem send_private_write_fail_cex :
    send_private_message [⟨1, false, []⟩] 1 privHi = some [⟨1, false, []⟩] ∧
    (([⟨1, false, []⟩] : List WriteHalf).any (fun v => v.wid == 1) = true) :=
  ⟨by decide, by decide⟩

/-- Claim C4 (amended): when the private write to a present target fails,
nothing is removed and nothing is retried: the dispatch returns the registry
completely unchanged (the failure is only logged), and no error reaches the
sender. -/
theorem send_private_write_fail_no_removal (reg : List WriteHalf) (t : Nat)
    (m : List Char) (ht : 1 ≤ t) (h : t - 1 < reg.length)
    (hfail : (reg.get ⟨t - 1, h⟩).ok = false) :
    send_private_message reg t m = some reg := by
  have ht0 : ¬ t = 0 := by omega
  unfold send_private_message
  rw [if_neg ht0, List.get?_eq_get h]
  simp only [List.get_eq_getElem] at hfail
  simp [writeLine, hfail]
  have h2 := set_get_self reg (t - 1) h
  simpa using h2

theorem send_private_write_fail_no_removal_witness :
    send_private_message ([⟨1, false, []⟩] : List WriteHalf) 1 privHi =
      some ([⟨1, false, []⟩] : List WriteHalf) := by
  exact send_private_write_fail_no_removal ([⟨1, false, []⟩] : List WriteHalf) 1 privHi
    (by decide) (by decide) (by decide)

/-! ### Claims on the accept loop -/

/-- The block of `n` consecutive identities handed out starting at `id`. -/
def idsFrom (id : Nat) : Nat → List Nat
  | 0 => []
  | n + 1 => id :: idsFrom (id + 1) n

theorem mem_idsFrom (x id n : Nat) : x ∈ idsFrom id n ↔ id ≤ x ∧ x < id + n := by
  induction n generalizing id with
  | zero =>
    simp only [idsFrom, List.not_mem_nil, false_iff]
    omega
  | succ n ih =>
    simp only [idsFrom, List.mem_cons, ih (id + 1)]
    omega

theorem nodup_idsFrom (id n : Nat) : (idsFrom id n).Nodup := by
  induction n generalizing id with
  | zero => simp [idsFrom]
  | succ n ih =>
    simp only [idsFrom, List.nodup_cons]
    refine ⟨fun hmem => ?_, ih (id + 1)⟩
    have := (mem_idsFrom id (id + 1) n).mp hmem
    omega

theorem pairwise_idsFrom (id n : Nat) :
    List.Pairwise (fun a b => a < b) (idsFrom id n) := by
  induction n generalizing id with
  | zero => simp [idsFrom]
  | succ n ih =>
    simp only [idsFrom, List.pairwise_cons]
    refine ⟨fun b hb => ?_, ih (id + 1)⟩
    have := (mem_idsFrom b (id + 1) n).mp hb
    omega

theorem run_server_replicate_true (N id : Nat) :
    run_server (List.replicate N true) id =
      ⟨idsFrom id N, idsFrom id N, id + N, false⟩ := by
  induction N generalizing id with
  | zero => rfl
  | succ N ih =>
    simp only [List.replicate_succ, run_server, if_true, ih (id + 1), idsFrom]
    have : id + 1 + N = id + (N + 1) := by omega
    rw [this]

theorem run_server_fail_at (post : List Bool) :
    ∀ (pre : List Bool) (id : Nat), (∀ b ∈ pre, b = true) →
      run_server (pre ++ false :: post) id =
        ⟨idsFrom id pre.length ++ [pre.length + id], idsFrom id pre.length,
         pre.length + id + 1, true⟩ := by
  intro pre
  induction pre with
  | nil =>
    intro id hpre
    simp [run_server, idsFrom]
  | cons b pre ih =>
    intro id hpre
    have hb : b = true := hpre b (by simp)
    subst hb
    have hpre' : ∀ x ∈ pre, x = true := fun x hx => hpre x (by simp [hx])
    simp only [List.cons_append, run_server, if_true, List.append_eq]
    rw [ih (id + 1) hpre']
    simp only [idsFrom, List.length_cons]
    have h1 : pre.length + (id + 1) = pre.length + 1 + id := by omega
    rw [h1]
    simp

/-- Claim C9: identities are assigned starting at 1, monotonically increasing
in order of successful acceptance: after N accepted connections the assigned
identities form the strictly increasing, duplicate-free block {1,…,N}.  The
counter is a local of the accept loop, only ever incremented and never
consulted or reset by any removal path, so no identity is reassigned during a
run even after the corresponding registry entry is removed. -/
theorem run_server_identity_assignment (N : Nat) :
    (run_server (List.replicate N true) 1).assigned = idsFrom 1 N ∧
    (run_server (List.replicate N true) 1).errored = false ∧
    (∀ x, x ∈ idsFrom 1 N ↔ 1 ≤ x ∧ x ≤ N) ∧
    (idsFrom 1 N).Nodup ∧
    List.Pairwise (fun a b => a < b) (idsFrom 1 N) := by
  have h := run_server_replicate_true N 1
  refine ⟨by rw [h], by rw [h], fun x => ?_, nodup_idsFrom 1 N, pairwise_idsFrom 1 N⟩
  rw [mem_idsFrom]
  omega

/-- Claim C3, counterexample: two accept events, the first connection's
handshake write fails.  `run_server` consumes identity 1, registers and spawns
nothing — and returns `Err` at once (`errored = true`), so the second,
perfectly acceptable connection is never served; this refutes "the server's
accept loop continues running; only a bind/accept failure terminates the
server". -/
theorem run_server_handshake_fail_terminates :
    run_server [false, true] 1 = ⟨[1], [], 2, true⟩ := rfl

/-- Claim C3 (amended): when the handshake write to the (|pre|+1)-th accepted
connection fails after |pre| successes, that one connection is indeed
discarded without being spawned or registered, and its identity |pre|+1 is
consumed and distinct from all previously assigned ones; but the `?` on the
handshake write propagates the error out of `run_server`, terminating the
accept loop (and hence the server) just like a bind/accept failure — later
accept events are never served. -/
theorem run_server_handshake_fail_isolation (pre post : List Bool)
    (hpre : ∀ b ∈ pre, b = true) :
    run_server (pre ++ false :: post) 1 =
      ⟨idsFrom 1 pre.length ++ [pre.length + 1], idsFrom 1 pre.length,
       pre.length + 1 + 1, true⟩ ∧
    pre.length + 1 ∉ idsFrom 1 pre.length := by
  refine ⟨run_server_fail_at post pre 1 hpre, fun hmem => ?_⟩
  have := (mem_idsFrom (pre.length + 1) 1 pre.length).mp hmem
  omega

theorem run_server_handshake_fail_isolation_witness :
    (run_server ([true] ++ false :: [true]) 1 =
      ⟨idsFrom 1 (List.length ([true] : List Bool)) ++
        [List.length ([true] : List Bool) + 1],
       idsFrom 1 (List.length ([true] : List Bool)),
       List.length ([true] : List Bool) + 1 + 1, true⟩) ∧
    List.length ([true] : List Bool) + 1 ∉
      idsFrom 1 (List.length ([true] : List Bool)) := by
  exact run_server_handshake_fail_isolation [true] [true] (by decide)
